import Mathlib

/-!
Verification of the lane-level semantics of `src/mfma_on_cpu_threads.cc`, a CPU
emulation of the AMDGPU builtin `__builtin_amdgcn_mfma_f32_16x16x4f32` in which
ordinary CPU threads play the role of the 64 GPU lanes of one subgroup.

Modelling choices:
* Machine `float` values are modelled as exact rationals (`ℚ`); the loop
  structure of the source, including its in-place accumulation order, is kept.
* The shared tiles (`static float a_tile[64]`, `b_tile[64]`) are functions
  `ℕ → ℚ`, zero-initialized as C++ statics are.
* The concurrent execution of one kernel launch is modelled in two phases,
  mirroring the barrier discipline: every publish of every lane happens (in an
  arbitrary interleaving, represented by a list of lane ids), then every lane
  performs its post-barrier compute (again in an arbitrary interleaving).
  Theorems quantify over these interleavings.
-/

namespace Mfma

/-- The compile-time constant `constexpr int threads_per_subgroup = 64;`. -/
def threads_per_subgroup : ℕ := 64

/-- The vector type `floatx4_t` of 4 floats, modelled as exact rationals. -/
abbrev floatx4_t := Fin 4 → ℚ

/-- The row coordinate `int m = 4 * (tid / 16);` computed inside
`cpu_mfma_f32_16x16x4f32`. -/
def lane_m (tid : ℕ) : ℕ := 4 * (tid / 16)

/-- The column coordinate `int n = tid % 16;` computed inside
`cpu_mfma_f32_16x16x4f32`. -/
def lane_n (tid : ℕ) : ℕ := tid % 16

/-- The condition of `assert(tid < threads_per_subgroup && "current limitation:
only one subgroup");` at the top of `cpu_mfma_f32_16x16x4f32`.  `tid` is a C
`int`, so it is modelled as an integer; the assertion succeeds exactly when
this proposition holds. -/
def mfma_assert_cond (tid : ℤ) : Prop := tid < (threads_per_subgroup : ℤ)

instance (t : ℤ) : Decidable (mfma_assert_cond t) := by
  unfold mfma_assert_cond; infer_instance

/-- The inner `p` loop of `cpu_mfma_f32_16x16x4f32` for one value of `k`:
`for (int p = 0; p < 4; ++p) c[p] += a_tile[16 * k + m + p] * b_tile[16 * k + n];`,
updating the fragment `c` in place, component by component. -/
def mfma_inner (a_tile b_tile : ℕ → ℚ) (tid k : ℕ) (c : floatx4_t) : floatx4_t :=
  (List.finRange 4).foldl
    (fun c p =>
      Function.update c p
        (c p + a_tile (16 * k + lane_m tid + p.val) * b_tile (16 * k + lane_n tid)))
    c

/-- The post-barrier computation of `cpu_mfma_f32_16x16x4f32`: the outer
`for (int k = 0; k < 4; ++k)` loop around `mfma_inner`, reading the shared
tiles and accumulating into the private fragment `c`, which is returned. -/
def cpu_mfma_compute (a_tile b_tile : ℕ → ℚ) (tid : ℕ) (c : floatx4_t) : floatx4_t :=
  (List.range 4).foldl (fun c k => mfma_inner a_tile b_tile tid k c) c

/-- One publish step of `cpu_mfma_f32_16x16x4f32`: `tile[tid] = v;`
(the lines `a_tile[tid] = a;` and `b_tile[tid] = b;`). -/
def publish (tile : ℕ → ℚ) (tid : ℕ) (v : ℚ) : ℕ → ℚ := Function.update tile tid v

/-- The initial contents of `static float a_tile[threads_per_subgroup];`
(and `b_tile`): C++ statics are zero-initialized. -/
def tile_init : ℕ → ℚ := fun _ => 0

/-- The pre-barrier publish phase of one launch: each lane `t` in the list `o`
publishes its operand scalar `vals t` into its own slot, in the order given by
`o` (one arbitrary interleaving of the concurrent publishes). -/
def publishAll (vals : ℕ → ℚ) (o : List ℕ) (tile : ℕ → ℚ) : ℕ → ℚ :=
  o.foldl (fun tile t => publish tile t (vals t)) tile

/-- One lane of `matmul_kernel_f32_16x16x4f32` after the barrier:
`c[tid] = cpu_mfma_f32_16x16x4f32(a[tid], b[tid], c[tid]);` writes the compute
result into slot `tid` of the output array `c`. -/
def kernel_compute_step (a_tile b_tile : ℕ → ℚ) (c : ℕ → floatx4_t) (tid : ℕ) :
    ℕ → floatx4_t :=
  Function.update c tid (cpu_mfma_compute a_tile b_tile tid (c tid))

/-- The post-barrier phase of one launch: each lane in the list `o` performs
its `kernel_compute_step`, in the order given by `o`. -/
def compute_phase (a_tile b_tile : ℕ → ℚ) (o : List ℕ) (c : ℕ → floatx4_t) :
    ℕ → floatx4_t :=
  o.foldl (kernel_compute_step a_tile b_tile) c

/-- One full launch of `matmul_kernel_f32_16x16x4f32` on the 64 worker threads
of `main`: all publishes to the A tile (interleaving `oa`) and to the B tile
(interleaving `ob`), the barrier, then all per-lane computes (interleaving
`oc`). -/
def matmul_launch (a b : ℕ → ℚ) (oa ob oc : List ℕ) (c : ℕ → floatx4_t) :
    ℕ → floatx4_t :=
  compute_phase (publishAll a oa tile_init) (publishAll b ob tile_init) oc c

/-- A lane-id interleaving that contains exactly the 64 lanes of the subgroup,
as the launch loop of `main` produces. -/
def covers_subgroup (o : List ℕ) : Prop := ∀ j, j ∈ o ↔ j < threads_per_subgroup

/-- The `a` (and `b`) array built by `init_test_matrices`:
`a[i] = ((i / 16) == (i % 4));`. -/
def init_a : ℕ → ℚ := fun i => if i / 16 = i % 4 then 1 else 0

/-- The `b` array built by `init_test_matrices`:
`b[i] = ((i / 16) == (i % 4));`. -/
def init_b : ℕ → ℚ := fun i => if i / 16 = i % 4 then 1 else 0

/-- The `c` array built by `init_test_matrices`:
`c[i] = floatx4_t{static_cast<float>(i), 0, 0, 0};`. -/
def init_c : ℕ → floatx4_t := fun i p => if p = 0 then (i : ℚ) else 0

/-- Modelled from the spec: entry `(m, k)` of the reconstructed 16x4 A matrix
lives at `a[16*k + m]`. -/
def ref_A (a : ℕ → ℚ) (m k : ℕ) : ℚ := a (16 * k + m)

/-- Modelled from the spec: entry `(k, n)` of the reconstructed 4x16 B matrix
lives at `b[16*k + n]`. -/
def ref_B (b : ℕ → ℚ) (k n : ℕ) : ℚ := b (16 * k + n)

/-- Modelled from the spec: one entry of the reference 16x16x4
matrix-multiply-accumulate, `acc + (A * B)(row, col)` with the depth-4
reduction over `k`. -/
def ref_mma_entry (a b : ℕ → ℚ) (acc : ℚ) (row col : ℕ) : ℚ :=
  acc + ∑ k ∈ Finset.range 4, ref_A a row k * ref_B b k col

/-! ## Helper lemmas -/

/-- Evaluating the inner `p` loop at a component: each component is read once,
before it is written, so the in-place updates amount to a simultaneous
per-component accumulation. -/
theorem mfma_inner_apply (a_tile b_tile : ℕ → ℚ) (tid k : ℕ) (c : floatx4_t)
    (p : Fin 4) :
    mfma_inner a_tile b_tile tid k c p =
      c p + a_tile (16 * k + lane_m tid + p.val) * b_tile (16 * k + lane_n tid) := by
  fin_cases p <;> rfl

/-- Evaluating the whole compute loop at a component gives the depth-4 sum. -/
theorem cpu_mfma_compute_apply (a_tile b_tile : ℕ → ℚ) (tid : ℕ) (c : floatx4_t)
    (p : Fin 4) :
    cpu_mfma_compute a_tile b_tile tid c p =
      c p + ∑ k ∈ Finset.range 4,
        a_tile (16 * k + lane_m tid + p.val) * b_tile (16 * k + lane_n tid) := by
  show (List.range 4).foldl (fun c k => mfma_inner a_tile b_tile tid k c) c p = _
  rw [show List.range 4 = [0, 1, 2, 3] from rfl]
  simp only [List.foldl]
  rw [mfma_inner_apply, mfma_inner_apply, mfma_inner_apply, mfma_inner_apply,
    Finset.sum_range_succ, Finset.sum_range_succ, Finset.sum_range_succ,
    Finset.sum_range_one]
  ring

/-- Every tile index formed by the compute loop of a valid lane is below 64. -/
theorem mfma_index_bounds (t k p : ℕ) (ht : t < 64) (hk : k < 4) (hp : p < 4) :
    16 * k + lane_m t + p < 64 ∧ 16 * k + lane_n t < 64 := by
  unfold lane_m lane_n
  omega

/-- The compute loop of a valid lane only looks at tile slots below 64. -/
theorem cpu_mfma_compute_congr (a1 a2 b1 b2 : ℕ → ℚ) (t : ℕ) (ht : t < 64)
    (c : floatx4_t)
    (ha : ∀ j, j < 64 → a1 j = a2 j) (hb : ∀ j, j < 64 → b1 j = b2 j) :
    cpu_mfma_compute a1 b1 t c = cpu_mfma_compute a2 b2 t c := by
  funext p
  rw [cpu_mfma_compute_apply, cpu_mfma_compute_apply]
  congr 1
  refine Finset.sum_congr rfl (fun k hk => ?_)
  have hk4 : k < 4 := Finset.mem_range.mp hk
  have hb1 := mfma_index_bounds t k p.val ht hk4 p.isLt
  rw [ha _ hb1.1, hb _ hb1.2]

/-- After the publish phase, a slot holds the value its lane published if the
lane is in the interleaving, and its initial value otherwise. -/
theorem publishAll_apply (vals : ℕ → ℚ) (o : List ℕ) (tile : ℕ → ℚ) (i : ℕ) :
    publishAll vals o tile i = if i ∈ o then vals i else tile i := by
  induction o generalizing tile with
  | nil => simp [publishAll]
  | cons t rest ih =>
    show publishAll vals rest (publish tile t (vals t)) i = _
    rw [ih]
    by_cases h1 : i ∈ rest
    · simp [h1]
    · by_cases h2 : i = t <;>
        simp [publish, Function.update, h1, h2, List.mem_cons]

/-- A lane id not in the compute interleaving has its output slot untouched. -/
theorem compute_phase_not_mem (a_tile b_tile : ℕ → ℚ) (o : List ℕ)
    (c : ℕ → floatx4_t) (i : ℕ) (h : i ∉ o) :
    compute_phase a_tile b_tile o c i = c i := by
  induction o generalizing c with
  | nil => rfl
  | cons t rest ih =>
    have hne : i ≠ t := fun e => h (by simp [e])
    show compute_phase a_tile b_tile rest (kernel_compute_step a_tile b_tile c t) i = _
    rw [ih _ (fun hm => h (List.mem_cons_of_mem _ hm))]
    simp [kernel_compute_step, Function.update, hne]

/-- In a duplicate-free compute interleaving, the output slot of a
participating lane ends up holding exactly the result of that lane applied to
that slot of the initial array. -/
theorem compute_phase_mem (a_tile b_tile : ℕ → ℚ) (o : List ℕ)
    (c : ℕ → floatx4_t) (i : ℕ) (hn : o.Nodup) (h : i ∈ o) :
    compute_phase a_tile b_tile o c i =
      cpu_mfma_compute a_tile b_tile i (c i) := by
  induction o generalizing c with
  | nil => cases h
  | cons t rest ih =>
    rcases List.mem_cons.mp h with he | hm
    · subst he
      have hnotin : i ∉ rest := (List.nodup_cons.mp hn).1
      show compute_phase a_tile b_tile rest (kernel_compute_step a_tile b_tile c i) i = _
      rw [compute_phase_not_mem _ _ _ _ _ hnotin]
      simp [kernel_compute_step, Function.update]
    · have hne : i ≠ t := by
        rintro rfl
        exact (List.nodup_cons.mp hn).1 hm
      show compute_phase a_tile b_tile rest (kernel_compute_step a_tile b_tile c t) i = _
      rw [ih _ (List.nodup_cons.mp hn).2 hm]
      simp [kernel_compute_step, Function.update, hne]

/-- The value of each output entry of a full launch, for every lane below 64:
the MFMA accumulation of the input arrays. -/
theorem matmul_launch_apply (a b : ℕ → ℚ) (oa ob oc : List ℕ)
    (c : ℕ → floatx4_t) (i : ℕ)
    (hoa : covers_subgroup oa) (hob : covers_subgroup ob)
    (hocn : oc.Nodup) (hoc : covers_subgroup oc) (hi : i < 64) (p : Fin 4) :
    matmul_launch a b oa ob oc c i p =
      c i p + ∑ k ∈ Finset.range 4,
        a (16 * k + lane_m i + p.val) * b (16 * k + lane_n i) := by
  have hmem : i ∈ oc := (hoc i).mpr hi
  rw [matmul_launch, compute_phase_mem _ _ _ _ _ hocn hmem, cpu_mfma_compute_apply]
  congr 1
  refine Finset.sum_congr rfl (fun k hk => ?_)
  have hk4 : k < 4 := Finset.mem_range.mp hk
  have hbd := mfma_index_bounds i k p.val hi hk4 p.isLt
  rw [publishAll_apply, publishAll_apply, if_pos ((hoa _).mpr hbd.1),
    if_pos ((hob _).mpr hbd.2)]

/-! ## Claims -/

/-- C1: for every lane id `t` in `[0, 64)`, given tiles in which every lane
has published its operands, the post-barrier compute returns the fragment
whose component `p` is
`c[p] + sum over k in 0..4 of A_tile[16*k + m + p] * B_tile[16*k + n]`, with
`m = 4 * (t / 16)` and `n = t % 16`; the components range exactly over
`p : Fin 4`, so no other component exists to be changed. -/
theorem mfma_compute_fragment_formula (t : ℕ) (ht : t < threads_per_subgroup)
    (a_tile b_tile : ℕ → ℚ) (c : floatx4_t) (p : Fin 4) :
    cpu_mfma_compute a_tile b_tile t c p =
      c p + ∑ k ∈ Finset.range 4,
        a_tile (16 * k + lane_m t + p.val) * b_tile (16 * k + lane_n t) :=
  cpu_mfma_compute_apply a_tile b_tile t c p

/-- Witness for C1 at lane 17, component 2, with constant tiles. -/
theorem mfma_compute_fragment_formula_witness :
    cpu_mfma_compute (fun _ => 1) (fun _ => 1) 17 (fun _ => 0) 2 =
      (fun _ : Fin 4 => (0 : ℚ)) 2 + ∑ k ∈ Finset.range 4,
        (fun _ : ℕ => (1 : ℚ)) (16 * k + lane_m 17 + (2 : Fin 4).val) *
          (fun _ : ℕ => (1 : ℚ)) (16 * k + lane_n 17) :=
  mfma_compute_fragment_formula 17 (by decide) (fun _ => 1) (fun _ => 1) (fun _ => 0) 2

/-- C2: the map from lane id to `(m, n) = (4 * (t / 16), t % 16)` is injective
on `[0, 64)` and its image is exactly `{0, 4, 8, 12} x {0, ..., 15}`. -/
theorem lane_map_injective_and_covers :
    (∀ s t : Fin 64,
        (lane_m s.val, lane_n s.val) = (lane_m t.val, lane_n t.val) → s = t) ∧
      Finset.image (fun t : Fin 64 => (lane_m t.val, lane_n t.val)) Finset.univ =
        ({0, 4, 8, 12} : Finset ℕ) ×ˢ Finset.range 16 := by
  decide

/-- Witness for C2 at the pair of lanes 17 and 17. -/
theorem lane_map_injective_and_covers_witness :
    (⟨17, by decide⟩ : Fin 64) = ⟨17, by decide⟩ :=
  lane_map_injective_and_covers.1 ⟨17, by decide⟩ ⟨17, by decide⟩ (by decide)

/-- C3: with the arrays of `init_test_matrices`, every entry the 64-lane
launch produces equals the corresponding entry of the independently defined
reference 16x16x4 matrix-multiply-accumulate of the reconstructed A (16x4,
entry `(m, k)` at `a[16*k + m]`) and B (4x16, entry `(k, n)` at `b[16*k + n]`)
accumulated onto the initial C values, lane `i` component `p` holding output
row `lane_m i + p`, column `lane_n i`. -/
theorem identity_scenario_matches_reference (oa ob oc : List ℕ)
    (hoa : covers_subgroup oa) (hob : covers_subgroup ob)
    (hocn : oc.Nodup) (hoc : covers_subgroup oc) (i : ℕ) (hi : i < 64) (p : Fin 4) :
    matmul_launch init_a init_b oa ob oc init_c i p =
      ref_mma_entry init_a init_b (init_c i p) (lane_m i + p.val) (lane_n i) := by
  rw [matmul_launch_apply init_a init_b oa ob oc init_c i hoa hob hocn hoc hi p]
  simp only [ref_mma_entry, ref_A, ref_B, Nat.add_assoc]

/-- Witness for C3 with the in-order interleavings, at lane 5, component 1. -/
theorem identity_scenario_matches_reference_witness :
    matmul_launch init_a init_b (List.range 64) (List.range 64) (List.range 64)
        init_c 5 1 =
      ref_mma_entry init_a init_b (init_c 5 1) (lane_m 5 + (1 : Fin 4).val)
        (lane_n 5) :=
  identity_scenario_matches_reference (List.range 64) (List.range 64)
    (List.range 64)
    (by simp [covers_subgroup, threads_per_subgroup])
    (by simp [covers_subgroup, threads_per_subgroup])
    (List.nodup_range 64)
    (by simp [covers_subgroup, threads_per_subgroup]) 5 (by decide) 1

/-- C5: a publish writes exactly the slot of the publishing lane and
no other slot of the tile, and after any publish phase containing lane `t`,
slot `t` holds exactly the value lane `t` supplied, regardless of what every
other lane published. -/
theorem publish_single_slot (tile : ℕ → ℚ) (t : ℕ) (v : ℚ) :
    (publish tile t v t = v ∧ ∀ j, j ≠ t → publish tile t v j = tile j) ∧
      ∀ (vals : ℕ → ℚ) (o : List ℕ) (tile0 : ℕ → ℚ),
        t ∈ o → vals t = v → publishAll vals o tile0 t = v := by
  refine ⟨⟨?_, fun j hj => ?_⟩, fun vals o tile0 hmem hv => ?_⟩
  · simp [publish]
  · simp [publish, Function.update_noteq hj]
  · rw [publishAll_apply, if_pos hmem, hv]

/-- Witness for C5: lane 5 publishes 7; slot 3 keeps its old value, and after
a publish phase where lanes 0, 5, 9 publish, slot 5 holds 7. -/
theorem publish_single_slot_witness :
    publish (fun _ => 0) 5 7 3 = (fun _ : ℕ => (0 : ℚ)) 3 ∧
      publishAll (fun _ => 7) [0, 5, 9] (fun _ => 0) 5 = 7 :=
  ⟨(publish_single_slot (fun _ => 0) 5 7).1.2 3 (by decide),
    (publish_single_slot (fun _ => 0) 5 7).2 (fun _ => 7) [0, 5, 9] (fun _ => 0)
      (by decide) rfl⟩

/-- C6: for fixed input arrays `a`, `b`, fixed lane assignment and fixed
initial `c`, any two complete runs of the 64-lane launch, whatever the
interleavings of the concurrent publishes and computes, produce identical
output arrays. -/
theorem launch_deterministic (a b : ℕ → ℚ) (c : ℕ → floatx4_t)
    (oa1 ob1 oc1 oa2 ob2 oc2 : List ℕ)
    (h1a : covers_subgroup oa1) (h1b : covers_subgroup ob1)
    (h1n : oc1.Nodup) (h1c : covers_subgroup oc1)
    (h2a : covers_subgroup oa2) (h2b : covers_subgroup ob2)
    (h2n : oc2.Nodup) (h2c : covers_subgroup oc2) :
    matmul_launch a b oa1 ob1 oc1 c = matmul_launch a b oa2 ob2 oc2 c := by
  funext i
  by_cases hi : i < 64
  · funext p
    rw [matmul_launch_apply a b oa1 ob1 oc1 c i h1a h1b h1n h1c hi p,
      matmul_launch_apply a b oa2 ob2 oc2 c i h2a h2b h2n h2c hi p]
  · have h1 : i ∉ oc1 := fun hm => hi ((h1c i).mp hm)
    have h2 : i ∉ oc2 := fun hm => hi ((h2c i).mp hm)
    rw [matmul_launch, matmul_launch, compute_phase_not_mem _ _ _ _ _ h1,
      compute_phase_not_mem _ _ _ _ _ h2]

/-- Witness for C6: an in-order run and a reversed-order run coincide. -/
theorem launch_deterministic_witness :
    matmul_launch (fun _ => 1) (fun _ => 2) (List.range 64) (List.range 64)
        (List.range 64) (fun _ _ => 0) =
      matmul_launch (fun _ => 1) (fun _ => 2) ((List.range 64).reverse)
        ((List.range 64).reverse) ((List.range 64).reverse) (fun _ _ => 0) :=
  launch_deterministic (fun _ => 1) (fun _ => 2) (fun _ _ => 0)
    (List.range 64) (List.range 64) (List.range 64)
    ((List.range 64).reverse) ((List.range 64).reverse) ((List.range 64).reverse)
    (by simp [covers_subgroup, threads_per_subgroup])
    (by simp [covers_subgroup, threads_per_subgroup])
    (List.nodup_range 64)
    (by simp [covers_subgroup, threads_per_subgroup])
    (by simp [covers_subgroup, threads_per_subgroup])
    (by simp [covers_subgroup, threads_per_subgroup])
    (List.nodup_reverse.mpr (List.nodup_range 64))
    (by simp [covers_subgroup, threads_per_subgroup])

/-- C7 counterexample: lane id `-1` is outside `[0, 64)`, yet the assertion
condition `tid < threads_per_subgroup` holds at `-1`, so the assertion does
not fail there: the code checks only the upper bound. -/
theorem assert_passes_out_of_range_lane :
    (-1 : ℤ) < 0 ∧ mfma_assert_cond (-1) := by
  decide

/-- C7 (amended): the assertion fails exactly for `lane_id >= 64`; every
`lane_id < 64`, including every negative one, passes the check, so under the
precondition `0 <= lane_id < 64` the assertion never fails. -/
theorem assert_cond_iff_lane_lt_64 (t : ℤ) :
    (64 ≤ t → ¬ mfma_assert_cond t) ∧ (t < 64 → mfma_assert_cond t) := by
  have h : (threads_per_subgroup : ℤ) = 64 := rfl
  unfold mfma_assert_cond
  rw [h]
  exact ⟨fun h1 h2 => absurd h2 (not_lt.mpr h1), fun h1 => h1⟩

/-- Witness for C7 (amended): lane 64 fails the assertion, lane `-1` passes. -/
theorem assert_cond_iff_lane_lt_64_witness :
    ¬ mfma_assert_cond 64 ∧ mfma_assert_cond (-1) :=
  ⟨(assert_cond_iff_lane_lt_64 64).1 (by decide),
    (assert_cond_iff_lane_lt_64 (-1)).2 (by decide)⟩

/-- C8: one invocation of the kernel entry point with all 64 lanes live
performs exactly one full 16x16x4 MFMA on the arrays `a`, `b`, `c`: lane `i`
publishes `a[i]` and `b[i]`, and slot `i` of the output array receives the
accumulation of `c[i]` with the depth-4 reduction over the published tiles. -/
theorem kernel_entry_full_mfma (a b : ℕ → ℚ) (oa ob oc : List ℕ)
    (c : ℕ → floatx4_t)
    (hoa : covers_subgroup oa) (hob : covers_subgroup ob)
    (hocn : oc.Nodup) (hoc : covers_subgroup oc) (i : ℕ) (hi : i < 64)
    (p : Fin 4) :
    matmul_launch a b oa ob oc c i p =
      c i p + ∑ k ∈ Finset.range 4,
        a (16 * k + lane_m i + p.val) * b (16 * k + lane_n i) :=
  matmul_launch_apply a b oa ob oc c i hoa hob hocn hoc hi p

/-- Witness for C8 with the in-order interleavings, at lane 0, component 0. -/
theorem kernel_entry_full_mfma_witness :
    matmul_launch (fun _ => 1) (fun _ => 1) (List.range 64) (List.range 64)
        (List.range 64) (fun _ _ => 0) 0 0 =
      (fun _ : ℕ => fun _ : Fin 4 => (0 : ℚ)) 0 0 + ∑ k ∈ Finset.range 4,
        (fun _ : ℕ => (1 : ℚ)) (16 * k + lane_m 0 + (0 : Fin 4).val) *
          (fun _ : ℕ => (1 : ℚ)) (16 * k + lane_n 0) :=
  kernel_entry_full_mfma (fun _ => 1) (fun _ => 1) (List.range 64)
    (List.range 64) (List.range 64) (fun _ _ => 0)
    (by simp [covers_subgroup, threads_per_subgroup])
    (by simp [covers_subgroup, threads_per_subgroup])
    (List.nodup_range 64)
    (by simp [covers_subgroup, threads_per_subgroup]) 0 (by decide) 0

/-- C9: for every lane id below 64, every tile index the compute loop forms is
in bounds: `16*k + m + p < 64` and `16*k + n < 64` for all `k, p` below 4. -/
theorem tile_indices_in_bounds (t k p : ℕ) (ht : t < 64) (hk : k < 4)
    (hp : p < 4) :
    16 * k + lane_m t + p < 64 ∧ 16 * k + lane_n t < 64 :=
  mfma_index_bounds t k p ht hk hp

/-- Witness for C9 at the extremal lane 63, `k = 3`, `p = 3`. -/
theorem tile_indices_in_bounds_witness :
    16 * 3 + lane_m 63 + 3 < 64 ∧ 16 * 3 + lane_n 63 < 64 :=
  tile_indices_in_bounds 63 3 3 (by decide) (by decide) (by decide)

/-- C10: lane `i` of the kernel entry point writes only `c[i]`: every other
slot `j` is unchanged, and the value lane `i` writes into `c[i]` depends only
on `c[i]`, never on any `c[j]`. -/
theorem lane_writes_own_slot_only (a_tile b_tile : ℕ → ℚ) (c : ℕ → floatx4_t)
    (i j : ℕ) (hne : i ≠ j) :
    kernel_compute_step a_tile b_tile c i j = c j ∧
      ∀ c1 c2 : ℕ → floatx4_t, c1 i = c2 i →
        kernel_compute_step a_tile b_tile c1 i i =
          kernel_compute_step a_tile b_tile c2 i i := by
  constructor
  · simp [kernel_compute_step, Function.update_noteq (Ne.symm hne)]
  · intro c1 c2 h
    simp [kernel_compute_step, Function.update_same, h]

/-- Witness for C10: lane 0 leaves slot 1 unchanged. -/
theorem lane_writes_own_slot_only_witness :
    kernel_compute_step (fun _ => 0) (fun _ => 0) (fun _ _ => 0) 0 1 =
      (fun _ : ℕ => fun _ : Fin 4 => (0 : ℚ)) 1 :=
  (lane_writes_own_slot_only (fun _ => 0) (fun _ => 0) (fun _ _ => 0) 0 1
    (by decide)).1

end Mfma
